import Mathlib

/-
Verification of resources/update-emoji.json.py.

The script is:

  def unified_to_unicode(unified: str) -> str:
      return (
          "".join(rf"\U{chunk:0>8}" for chunk in unified.split("-"))
          .encode("ascii")
          .decode("unicode_escape")
      )

  data = requests.get(...).json()
  emojis = {emoji["short_name"]: unified_to_unicode(emoji["unified"]) for emoji in data}
  with open("emoji.json", "w") as file:
      json.dump(emojis, file, ensure_ascii=False)

Python strings are modelled as lists of code points (Nat), since Python's str -
unlike Lean's Char - admits lone surrogates (chr(0xD800) is legal, and the
unicode_escape codec produces it).  The network fetch is out of scope: the
parsed record list is a parameter of the model.
-/

/-- A Python `str`: a sequence of code points.  Python permits lone surrogates,
so elements are plain naturals (held below 0x110000 by every producer). -/
abbrev PyStr := List Nat

/-- The exceptions the script can raise on the paths we model:
`unicodeEncodeError` from `.encode("ascii")` (and from encoding the output file
to UTF-8), `unicodeDecodeError` from `.decode("unicode_escape")`, and
`keyError` from `emoji["short_name"]` / `emoji["unified"]` on a missing field. -/
inductive PyError where
  | unicodeEncodeError
  | unicodeDecodeError
  | keyError
deriving Repr, DecidableEq

/-- Hexadecimal digit test on a code point (0-9, a-f, A-F), as in Python's
escape-sequence scanner. -/
def isHexDigitB (b : Nat) : Bool :=
  (48 ≤ b && b ≤ 57) || (97 ≤ b && b ≤ 102) || (65 ≤ b && b ≤ 70)

/-- Value of a hexadecimal digit code point (junk 0 on non-digits). -/
def hexDigitVal (b : Nat) : Nat :=
  if 48 ≤ b && b ≤ 57 then b - 48
  else if 97 ≤ b && b ≤ 102 then b - 87
  else if 65 ≤ b && b ≤ 70 then b - 55
  else 0

/-- Value of a string of hexadecimal digits, most significant first. -/
def hexListVal (l : List Nat) : Nat :=
  l.foldl (fun a b => a * 16 + hexDigitVal b) 0

/-- Octal digit test (0-7). -/
def isOctDigit (b : Nat) : Bool := 48 ≤ b && b ≤ 55

/-- Python's `str.split(sep)` for a one-character separator: it keeps empty
pieces, and on the empty string returns `[""]`. -/
def pySplit (sep : Nat) : List Nat → List (List Nat)
  | [] => [[]]
  | c :: rest =>
    if c = sep then [] :: pySplit sep rest
    else
      match pySplit sep rest with
      | [] => [[c]]
      | h :: t => (c :: h) :: t

/-- CPython's `unicode_escape` codec on a byte string (each byte a Nat < 256):
plain bytes map to themselves (latin-1); `\` starts an escape sequence exactly
as in `PyUnicode_DecodeUnicodeEscapeInternal`: the single-character escapes,
`\` + newline (line continuation), up to three octal digits, `\xhh`, `\uhhhh`,
`\Uhhhhhhhh` (rejected above 0x10FFFF; lone surrogates are accepted), and an
unrecognised escape keeps the backslash and the character.  `\N{name}` named
escapes would need the Unicode name table; the script only ever feeds this
codec `\U`-escapes built from hex chunks, and the model maps `\N` to a decode
error.  The `fuel` argument only serves termination: every step consumes at
least one input character, so `fuel = length` (as supplied by
`unicodeEscape`) never runs out. -/
def uEscF : Nat → List Nat → Except PyError (List Nat)
  | _, [] => .ok []
  | 0, _ :: _ => .error .unicodeDecodeError
  | fuel + 1, b :: rest =>
    if b = 92 then
      match rest with
      | [] => .error .unicodeDecodeError
      | c :: r =>
        if c = 10 then uEscF fuel r
        else if c = 92 then (fun l => 92 :: l) <$> uEscF fuel r
        else if c = 39 then (fun l => 39 :: l) <$> uEscF fuel r
        else if c = 34 then (fun l => 34 :: l) <$> uEscF fuel r
        else if c = 98 then (fun l => 8 :: l) <$> uEscF fuel r
        else if c = 102 then (fun l => 12 :: l) <$> uEscF fuel r
        else if c = 116 then (fun l => 9 :: l) <$> uEscF fuel r
        else if c = 110 then (fun l => 10 :: l) <$> uEscF fuel r
        else if c = 114 then (fun l => 13 :: l) <$> uEscF fuel r
        else if c = 118 then (fun l => 11 :: l) <$> uEscF fuel r
        else if c = 97 then (fun l => 7 :: l) <$> uEscF fuel r
        else if isOctDigit c then
          match r with
          | [] => .ok [c - 48]
          | d2 :: r2 =>
            if isOctDigit d2 then
              match r2 with
              | [] => .ok [(c - 48) * 8 + (d2 - 48)]
              | d3 :: r3 =>
                if isOctDigit d3 then
                  (fun l => ((c - 48) * 64 + (d2 - 48) * 8 + (d3 - 48)) :: l) <$>
                    uEscF fuel r3
                else
                  (fun l => ((c - 48) * 8 + (d2 - 48)) :: l) <$> uEscF fuel r2
            else (fun l => (c - 48) :: l) <$> uEscF fuel r
        else if c = 120 then
          match r with
          | a1 :: a2 :: r2 =>
            if isHexDigitB a1 && isHexDigitB a2 then
              (fun l => (hexDigitVal a1 * 16 + hexDigitVal a2) :: l) <$> uEscF fuel r2
            else .error .unicodeDecodeError
          | _ => .error .unicodeDecodeError
        else if c = 117 then
          match r with
          | a1 :: a2 :: a3 :: a4 :: r2 =>
            if isHexDigitB a1 && isHexDigitB a2 && isHexDigitB a3 && isHexDigitB a4 then
              (fun l => hexListVal [a1, a2, a3, a4] :: l) <$> uEscF fuel r2
            else .error .unicodeDecodeError
          | _ => .error .unicodeDecodeError
        else if c = 85 then
          match r with
          | a1 :: a2 :: a3 :: a4 :: a5 :: a6 :: a7 :: a8 :: r2 =>
            if isHexDigitB a1 && isHexDigitB a2 && isHexDigitB a3 && isHexDigitB a4 &&
               isHexDigitB a5 && isHexDigitB a6 && isHexDigitB a7 && isHexDigitB a8 then
              if hexListVal [a1, a2, a3, a4, a5, a6, a7, a8] ≤ 0x10FFFF then
                (fun l => hexListVal [a1, a2, a3, a4, a5, a6, a7, a8] :: l) <$>
                  uEscF fuel r2
              else .error .unicodeDecodeError
            else .error .unicodeDecodeError
          | _ => .error .unicodeDecodeError
        else if c = 78 then .error .unicodeDecodeError
        else (fun l => 92 :: c :: l) <$> uEscF fuel r
    else (fun l => b :: l) <$> uEscF fuel rest

/-- The `unicode_escape` codec proper: run the fueled decoder with enough fuel
(the input's length bounds the number of steps, as each consumes a character). -/
def unicodeEscape (l : List Nat) : Except PyError (List Nat) :=
  uEscF l.length l

/-- The f-string `rf"\U{chunk:0>8}"` minus the `\U` prefix: the chunk
left-padded with `0` to width 8 (longer chunks are untouched). -/
def leftPadZero (l : List Nat) : List Nat :=
  List.replicate (8 - l.length) 48 ++ l

/-- The generator-join `"".join(rf"\U{chunk:0>8}" for chunk in chunks)`. -/
def escapeSegments (chunks : List (List Nat)) : List Nat :=
  (chunks.map (fun c => 92 :: 85 :: leftPadZero c)).flatten

/-- Whether `.encode("ascii")` succeeds: every code point below 128. -/
def asciiOk (l : List Nat) : Bool := l.all (fun b => b < 128)

/-- The script's `unified_to_unicode`: split on `-`, wrap each chunk as a
zero-padded `\U` escape, join, encode to ASCII, decode via `unicode_escape`. -/
def unified_to_unicode (unified : PyStr) : Except PyError PyStr :=
  let s := escapeSegments (pySplit 45 unified)
  if asciiOk s then unicodeEscape s else .error .unicodeEncodeError

/-- One record of the fetched JSON array.  Python looks fields up dynamically
(`emoji["short_name"]`, `emoji["unified"]`), so each field is optional here and
a missing one raises `keyError`, as the subscript does in Python. -/
structure EmojiRecord where
  short_name : Option PyStr
  unified : Option PyStr
deriving Repr, DecidableEq

/-- A Python dict of str keys and values, as an insertion-ordered association
list with unique keys. -/
abbrev Dict := List (PyStr × PyStr)

/-- Whether an entry's key equals `k`. -/
def keyMatches (k : PyStr) (p : PyStr × PyStr) : Bool := decide (p.1 = k)

/-- Python's `d[k] = v`: overwrite in place if the key is present (keeping its
position), otherwise append at the end, per dict insertion-order semantics. -/
def dictInsert (d : Dict) (k v : PyStr) : Dict :=
  if d.any (keyMatches k) then d.map (fun p => if p.1 = k then (k, v) else p)
  else d ++ [(k, v)]

/-- Python's `d[k]` as an option. -/
def dictLookup (d : Dict) (k : PyStr) : Option PyStr :=
  (d.find? (keyMatches k)).map (fun p => p.2)

/-- The dict comprehension, record by record: look up `short_name` (key first,
as in Python 3.8+) and `unified`, decode, and insert; the first exception
aborts the whole comprehension. -/
def buildTableAux (acc : Dict) : List EmojiRecord → Except PyError Dict
  | [] => .ok acc
  | r :: rest =>
    match r.short_name with
    | none => .error .keyError
    | some k =>
      match r.unified with
      | none => .error .keyError
      | some u =>
        match unified_to_unicode u with
        | .error e => .error e
        | .ok v => buildTableAux (dictInsert acc k v) rest

/-- The script's `emojis = {emoji["short_name"]: unified_to_unicode(emoji["unified"])
for emoji in data}`. -/
def emojis (data : List EmojiRecord) : Except PyError Dict :=
  buildTableAux [] data

/-- Lowercase hexadecimal digit character for a value below 16, as used by
Python's `json` encoder in `\u00xx` escapes. -/
def hexDigitChar (n : Nat) : Nat := if n < 10 then 48 + n else 87 + n

/-- Python `json` string escaping with `ensure_ascii=False`: only `"`, `\` and
control characters below 0x20 are escaped (the usual shorthands, else
`\u00xx`); everything else - non-ASCII included - is emitted literally. -/
def jsonEscapeChar (c : Nat) : List Nat :=
  if c = 92 then [92, 92]
  else if c = 34 then [92, 34]
  else if c = 8 then [92, 98]
  else if c = 12 then [92, 102]
  else if c = 10 then [92, 110]
  else if c = 13 then [92, 114]
  else if c = 9 then [92, 116]
  else if c < 32 then [92, 117, 48, 48, hexDigitChar (c / 16), hexDigitChar (c % 16)]
  else [c]

/-- A JSON string literal for `s`: quote, escaped body, quote. -/
def jsonEscapeString (s : PyStr) : PyStr :=
  34 :: ((s.map jsonEscapeChar).flatten ++ [34])

/-- The members of the serialized object with `json.dump`'s default
separators: entries joined by a comma and space, key and value joined by a
colon and space. -/
def jsonDumpEntries : Dict → PyStr
  | [] => []
  | [(k, v)] => jsonEscapeString k ++ [58, 32] ++ jsonEscapeString v
  | (k, v) :: rest =>
    jsonEscapeString k ++ [58, 32] ++ jsonEscapeString v ++ [44, 32] ++ jsonDumpEntries rest

/-- The text `json.dump(emojis, file, ensure_ascii=False)` produces. -/
def jsonDumps (d : Dict) : PyStr :=
  123 :: (jsonDumpEntries d ++ [125])

/-- Whether a code point is a Unicode scalar value: what UTF-8 (the output
file's encoding) can represent; lone surrogates are rejected by the codec. -/
def isScalarCP (c : Nat) : Bool := c < 0xD800 || (0xDFFF < c && c < 0x110000)

/-- Writing the table: `json.dump(emojis, file, ensure_ascii=False)` into
`open("emoji.json", "w")`.  The dump itself always yields the text of
`jsonDumps`; encoding that text to the UTF-8 file stream raises
`UnicodeEncodeError` when it contains a lone surrogate. -/
def writeTable (t : Dict) : Except PyError PyStr :=
  if (jsonDumps t).all isScalarCP then .ok (jsonDumps t) else .error .unicodeEncodeError

/-- The script after the fetch, as a function of the fetched records and the
previous content of `emoji.json` (`none` when the file does not exist).
Returns the final file state and the run's outcome.  The comprehension runs
before `open(...)`, so when it raises, the file is untouched; when the write
itself fails, `open(..., "w")` has already truncated the file. -/
def runScript (data : List EmojiRecord) (fs : Option PyStr) :
    Option PyStr × Except PyError Dict :=
  match emojis data with
  | .error e => (fs, .error e)
  | .ok t =>
    match writeTable t with
    | .ok s => (some s, .ok t)
    | .error e => (some [], .error e)

/-- JSON whitespace, as skipped by Python's `json.loads`. -/
def isJsonWs (c : Nat) : Bool := c = 32 || c = 9 || c = 10 || c = 13

/-- Drop leading JSON whitespace. -/
def skipWs : List Nat → List Nat
  | [] => []
  | c :: r => if isJsonWs c then skipWs r else c :: r

/-- Modelled from the spec: the re-parsing half of the round-trip property
("re-parsing the output file as JSON yields a mapping equal to the in-memory
table").  The repository has no parser, so this follows Python's
`json.loads` string scanner (`py_scanstring`): after an opening quote, read
until the closing quote; literal control characters are rejected (strict
mode); escapes are the standard JSON ones, with `\uXXXX` high/low surrogate
pairs combined and lone surrogates kept.  Returns the string and the input
after the closing quote.  `fuel` only serves termination (each step consumes
at least one character).

`surrPair` is `py_scanstring`'s lookahead after a high surrogate `\uXXXX`: when
a `\u` escape with a low surrogate follows, the two combine into one code
point; a following non-surrogate `\u` leaves the lone high surrogate; a
malformed following `\u` escape is an error. -/
def surrPair (v : Nat) (r : List Nat) : Option (Nat × List Nat) :=
  match r with
  | x1 :: x2 :: g1 :: g2 :: g3 :: g4 :: r4 =>
    if x1 = 92 ∧ x2 = 117 then
      if isHexDigitB g1 && isHexDigitB g2 && isHexDigitB g3 && isHexDigitB g4 then
        if 0xDC00 ≤ hexListVal [g1, g2, g3, g4] ∧ hexListVal [g1, g2, g3, g4] ≤ 0xDFFF then
          some (0x10000 + (v - 0xD800) * 0x400 + (hexListVal [g1, g2, g3, g4] - 0xDC00), r4)
        else some (v, r)
      else none
    else some (v, r)
  | _ => some (v, r)

/-- One escape sequence after the backslash, as in `py_scanstring`: the
single-character escapes, or `\uXXXX` (with the surrogate lookahead above);
returns the decoded code point and the remaining input, `none` on a malformed
escape. -/
def escStep (e : Nat) (r2 : List Nat) : Option (Nat × List Nat) :=
  if e = 34 then some (34, r2)
  else if e = 92 then some (92, r2)
  else if e = 47 then some (47, r2)
  else if e = 98 then some (8, r2)
  else if e = 102 then some (12, r2)
  else if e = 110 then some (10, r2)
  else if e = 114 then some (13, r2)
  else if e = 116 then some (9, r2)
  else if e = 117 then
    match r2 with
    | h1 :: h2 :: h3 :: h4 :: r3 =>
      if isHexDigitB h1 && isHexDigitB h2 && isHexDigitB h3 && isHexDigitB h4 then
        if 0xD800 ≤ hexListVal [h1, h2, h3, h4] ∧
            hexListVal [h1, h2, h3, h4] ≤ 0xDBFF then
          surrPair (hexListVal [h1, h2, h3, h4]) r3
        else some (hexListVal [h1, h2, h3, h4], r3)
      else none
    | _ => none
  else none

def parseStrF : Nat → List Nat → Option (PyStr × List Nat)
  | _, [] => none
  | 0, _ :: _ => none
  | fuel + 1, c :: rest =>
    if c = 34 then some ([], rest)
    else if c = 92 then
      match rest with
      | [] => none
      | e :: r2 =>
        match escStep e r2 with
        | none => none
        | some (w, r3) => (fun p => (w :: p.1, p.2)) <$> parseStrF fuel r3
    else if c < 32 then none
    else (fun p => (c :: p.1, p.2)) <$> parseStrF fuel rest

/-- Modelled from the spec (continued): one object member of `json.loads`
restricted to string values - the only shape the writer emits: whitespace,
`"key"`, `:`, `"value"`, then the next non-whitespace character (a comma or
the closing brace) and the input after it. -/
def parseOneEntry (s : List Nat) : Option (PyStr × PyStr × Nat × List Nat) :=
  match skipWs s with
  | [] => none
  | c :: r1 =>
    if c = 34 then
      match parseStrF r1.length r1 with
      | none => none
      | some (k, r2) =>
        match skipWs r2 with
        | [] => none
        | c2 :: r3 =>
          if c2 = 58 then
            match skipWs r3 with
            | [] => none
            | c3 :: r4 =>
              if c3 = 34 then
                match parseStrF r4.length r4 with
                | none => none
                | some (v, r5) =>
                  match skipWs r5 with
                  | [] => none
                  | c4 :: r6 => some (k, v, c4, r6)
              else none
          else none
    else none

/-- Modelled from the spec (continued): the member list of the object - a
member, then after a comma more members, or the closing brace.  Returns the
members and the input after the closing brace. -/
def parseEntriesF : Nat → List Nat → Option (Dict × List Nat)
  | 0, _ => none
  | fuel + 1, s =>
    match parseOneEntry s with
    | none => none
    | some (k, v, c4, r6) =>
      if c4 = 44 then
        match parseEntriesF fuel r6 with
        | none => none
        | some (d, rest) => some ((k, v) :: d, rest)
      else if c4 = 125 then some ([(k, v)], r6)
      else none

/-- Modelled from the spec: `json.loads` on the output file's text, for the
object-of-strings shape the writer emits; requires only whitespace after the
closing brace. -/
def parseJson (s : PyStr) : Option Dict :=
  match skipWs s with
  | [] => none
  | c :: r =>
    if c = 123 then
      match skipWs r with
      | [] => none
      | d :: r2 =>
        if d = 125 then if skipWs r2 = [] then some [] else none
        else
          match parseEntriesF r.length (d :: r2) with
          | none => none
          | some (t, rest) => if skipWs rest = [] then some t else none
    else none

theorem isHexDigitB_lt (b : Nat) (h : isHexDigitB b = true) : b < 128 := by
  simp [isHexDigitB, Bool.or_eq_true, Bool.and_eq_true, decide_eq_true_eq] at h
  omega

theorem isHexDigitB_ne_sep (b : Nat) (h : isHexDigitB b = true) : b ≠ 45 := by
  simp [isHexDigitB, Bool.or_eq_true, Bool.and_eq_true, decide_eq_true_eq] at h
  omega

theorem pySplit_ne_nil (sep : Nat) (l : List Nat) : pySplit sep l ≠ [] := by
  induction l with
  | nil => simp [pySplit]
  | cons b l ih =>
    simp only [pySplit]
    split
    · simp
    · split
      · simp
      · simp

theorem pySplit_append_sep (sep : Nat) (c rest : List Nat) (hs : ∀ b ∈ c, b ≠ sep) :
    pySplit sep (c ++ sep :: rest) = c :: pySplit sep rest := by
  induction c with
  | nil => simp [pySplit]
  | cons b c ih =>
    have hb : b ≠ sep := hs b (by simp)
    have ih2 := ih (fun x hx => hs x (by simp [hx]))
    simp only [List.cons_append, pySplit, List.append_eq]
    rw [if_neg hb, ih2]

theorem pySplit_no_sep (sep : Nat) (c : List Nat) (hs : ∀ b ∈ c, b ≠ sep) :
    pySplit sep c = [c] := by
  induction c with
  | nil => simp [pySplit]
  | cons b c ih =>
    have hb : b ≠ sep := hs b (by simp)
    have ih2 := ih (fun x hx => hs x (by simp [hx]))
    simp only [pySplit]
    rw [if_neg hb, ih2]

theorem pySplit_intercalate (chunks : List PyStr) (hne : chunks ≠ [])
    (hs : ∀ c ∈ chunks, ∀ b ∈ c, b ≠ 45) :
    pySplit 45 (List.intercalate [45] chunks) = chunks := by
  induction chunks with
  | nil => exact absurd rfl hne
  | cons c cs ih =>
    cases cs with
    | nil =>
      have h1 : List.intercalate [45] [c] = c := by
        simp [List.intercalate]
      rw [h1]
      exact pySplit_no_sep 45 c (hs c (by simp))
    | cons c2 cs2 =>
      have h1 : List.intercalate [45] (c :: c2 :: cs2) =
          c ++ 45 :: List.intercalate [45] (c2 :: cs2) := by
        simp [List.intercalate, List.intersperse_cons_cons]
      rw [h1, pySplit_append_sep 45 c _ (hs c (by simp))]
      rw [ih (by simp) (fun x hx => hs x (by simp [hx]))]

theorem leftPadZero_length (l : List Nat) (h : l.length ≤ 8) :
    (leftPadZero l).length = 8 := by
  simp [leftPadZero]
  omega

theorem hexListVal_leftPadZero (l : List Nat) : hexListVal (leftPadZero l) = hexListVal l := by
  have aux : ∀ (n : Nat) (t : List Nat),
      List.foldl (fun a b => a * 16 + hexDigitVal b) 0 (List.replicate n 48 ++ t) =
        List.foldl (fun a b => a * 16 + hexDigitVal b) 0 t := by
    intro n
    induction n with
    | zero => intro t; simp
    | succ m ih =>
      intro t
      simp only [List.replicate_succ, List.cons_append, List.foldl_cons]
      have h48 : hexDigitVal 48 = 0 := by decide
      simpa [h48] using ih t
  simpa [hexListVal, leftPadZero] using aux (8 - l.length) l

theorem leftPadZero_hex (l : List Nat) (hl : ∀ b ∈ l, isHexDigitB b = true) :
    ∀ b ∈ leftPadZero l, isHexDigitB b = true := by
  intro b hb
  simp only [leftPadZero, List.mem_append, List.mem_replicate] at hb
  rcases hb with ⟨-, rfl⟩ | hb
  · decide
  · exact hl b hb

theorem exists_eight (p : List Nat) (hp : p.length = 8) :
    ∃ a1 a2 a3 a4 a5 a6 a7 a8, p = [a1, a2, a3, a4, a5, a6, a7, a8] := by
  obtain ⟨a1, p, rfl⟩ := List.exists_of_length_succ p hp
  simp only [List.length_cons, Nat.succ_inj] at hp
  obtain ⟨a2, p, rfl⟩ := List.exists_of_length_succ p hp
  simp only [List.length_cons, Nat.succ_inj] at hp
  obtain ⟨a3, p, rfl⟩ := List.exists_of_length_succ p hp
  simp only [List.length_cons, Nat.succ_inj] at hp
  obtain ⟨a4, p, rfl⟩ := List.exists_of_length_succ p hp
  simp only [List.length_cons, Nat.succ_inj] at hp
  obtain ⟨a5, p, rfl⟩ := List.exists_of_length_succ p hp
  simp only [List.length_cons, Nat.succ_inj] at hp
  obtain ⟨a6, p, rfl⟩ := List.exists_of_length_succ p hp
  simp only [List.length_cons, Nat.succ_inj] at hp
  obtain ⟨a7, p, rfl⟩ := List.exists_of_length_succ p hp
  simp only [List.length_cons, Nat.succ_inj] at hp
  obtain ⟨a8, p, rfl⟩ := List.exists_of_length_succ p hp
  simp only [List.length_cons, Nat.succ_inj] at hp
  have : p = [] := List.length_eq_zero.mp hp
  exact ⟨a1, a2, a3, a4, a5, a6, a7, a8, by simp [this]⟩

theorem uEscF_U8 (fuel a1 a2 a3 a4 a5 a6 a7 a8 : Nat) (rest : List Nat) :
    uEscF (fuel + 1) (92 :: 85 :: a1 :: a2 :: a3 :: a4 :: a5 :: a6 :: a7 :: a8 :: rest) =
      if (isHexDigitB a1 && isHexDigitB a2 && isHexDigitB a3 && isHexDigitB a4 &&
          isHexDigitB a5 && isHexDigitB a6 && isHexDigitB a7 && isHexDigitB a8) = true then
        if hexListVal [a1, a2, a3, a4, a5, a6, a7, a8] ≤ 0x10FFFF then
          (fun l => hexListVal [a1, a2, a3, a4, a5, a6, a7, a8] :: l) <$> uEscF fuel rest
        else .error .unicodeDecodeError
      else .error .unicodeDecodeError := rfl

theorem uEscF_seg_ok (fuel : Nat) (p rest : List Nat) (hp : p.length = 8)
    (hhex : ∀ b ∈ p, isHexDigitB b = true) (hv : hexListVal p ≤ 0x10FFFF) :
    uEscF (fuel + 1) (92 :: 85 :: (p ++ rest)) =
      (fun l => hexListVal p :: l) <$> uEscF fuel rest := by
  obtain ⟨a1, a2, a3, a4, a5, a6, a7, a8, rfl⟩ := exists_eight p hp
  have h1 := hhex a1 (by simp)
  have h2 := hhex a2 (by simp)
  have h3 := hhex a3 (by simp)
  have h4 := hhex a4 (by simp)
  have h5 := hhex a5 (by simp)
  have h6 := hhex a6 (by simp)
  have h7 := hhex a7 (by simp)
  have h8 := hhex a8 (by simp)
  simp only [List.cons_append, List.nil_append]
  rw [uEscF_U8]
  rw [if_pos (by simp [h1, h2, h3, h4, h5, h6, h7, h8]), if_pos hv]

theorem uEscF_seg_err (fuel : Nat) (p rest : List Nat) (hp : p.length = 8)
    (hbad : ¬((∀ b ∈ p, isHexDigitB b = true) ∧ hexListVal p ≤ 0x10FFFF)) :
    uEscF (fuel + 1) (92 :: 85 :: (p ++ rest)) = .error .unicodeDecodeError := by
  obtain ⟨a1, a2, a3, a4, a5, a6, a7, a8, rfl⟩ := exists_eight p hp
  simp only [List.cons_append, List.nil_append]
  rw [uEscF_U8]
  by_cases hall : (isHexDigitB a1 && isHexDigitB a2 && isHexDigitB a3 && isHexDigitB a4 &&
      isHexDigitB a5 && isHexDigitB a6 && isHexDigitB a7 && isHexDigitB a8) = true
  · rw [if_pos hall, if_neg]
    intro hle
    apply hbad
    refine ⟨?_, hle⟩
    simp only [Bool.and_eq_true] at hall
    obtain ⟨⟨⟨⟨⟨⟨⟨k1, k2⟩, k3⟩, k4⟩, k5⟩, k6⟩, k7⟩, k8⟩ := hall
    intro b hb
    simp only [List.mem_cons, List.not_mem_nil, or_false] at hb
    rcases hb with rfl | rfl | rfl | rfl | rfl | rfl | rfl | rfl <;> assumption
  · rw [if_neg hall]

theorem escapeSegments_cons (c : List Nat) (cs : List (List Nat)) :
    escapeSegments (c :: cs) = 92 :: 85 :: (leftPadZero c ++ escapeSegments cs) := by
  simp [escapeSegments]

theorem escapeSegments_length (chunks : List (List Nat)) :
    chunks.length ≤ (escapeSegments chunks).length := by
  induction chunks with
  | nil => simp [escapeSegments]
  | cons c cs ih =>
    rw [escapeSegments_cons]
    simp only [List.length_cons, List.length_append]
    omega

theorem mem_leftPadZero (c : List Nat) (b : Nat) (hb : b ∈ c) : b ∈ leftPadZero c := by
  simp [leftPadZero, hb]

theorem uEscF_nil (fuel : Nat) : uEscF fuel [] = .ok [] := by
  cases fuel <;> rfl

theorem uEscF_segments_ok (chunks : List (List Nat)) :
    ∀ fuel : Nat, chunks.length ≤ fuel →
    (∀ c ∈ chunks, c.length ≤ 8 ∧ (∀ b ∈ c, isHexDigitB b = true) ∧
      hexListVal c ≤ 0x10FFFF) →
    uEscF fuel (escapeSegments chunks) = .ok (chunks.map hexListVal) := by
  induction chunks with
  | nil =>
    intro fuel _ _
    simp [escapeSegments, uEscF_nil]
  | cons c cs ih =>
    intro fuel hf hc
    cases fuel with
    | zero => simp at hf
    | succ f =>
      rw [escapeSegments_cons]
      obtain ⟨hlen, hhex, hval⟩ := hc c (by simp)
      rw [uEscF_seg_ok f _ _ (leftPadZero_length c hlen) (leftPadZero_hex c hhex)
        (by rw [hexListVal_leftPadZero]; exact hval)]
      rw [ih f (by simp at hf; omega) (fun x hx => hc x (by simp [hx]))]
      simp [Functor.map, Except.map, hexListVal_leftPadZero]

theorem uEscF_segments_err (chunks : List (List Nat)) :
    ∀ fuel : Nat, chunks.length ≤ fuel →
    (∀ c ∈ chunks, c.length ≤ 8) →
    (∃ c ∈ chunks, ¬((∀ b ∈ c, isHexDigitB b = true) ∧ hexListVal c ≤ 0x10FFFF)) →
    uEscF fuel (escapeSegments chunks) = .error .unicodeDecodeError := by
  induction chunks with
  | nil =>
    intro fuel _ _ hbad
    simp at hbad
  | cons c cs ih =>
    intro fuel hf hlen hbad
    cases fuel with
    | zero => simp at hf
    | succ f =>
      rw [escapeSegments_cons]
      by_cases hgood : (∀ b ∈ c, isHexDigitB b = true) ∧ hexListVal c ≤ 0x10FFFF
      · rw [uEscF_seg_ok f _ _ (leftPadZero_length c (hlen c (by simp)))
          (leftPadZero_hex c hgood.1)
          (by rw [hexListVal_leftPadZero]; exact hgood.2)]
        have hbad2 : ∃ c2 ∈ cs, ¬((∀ b ∈ c2, isHexDigitB b = true) ∧
            hexListVal c2 ≤ 0x10FFFF) := by
          obtain ⟨c2, hc2, hb⟩ := hbad
          simp only [List.mem_cons] at hc2
          rcases hc2 with rfl | hc2
          · exact absurd hgood hb
          · exact ⟨c2, hc2, hb⟩
        rw [ih f (by simp at hf; omega) (fun x hx => hlen x (by simp [hx])) hbad2]
        simp [Functor.map, Except.map]
      · apply uEscF_seg_err f _ _ (leftPadZero_length c (hlen c (by simp)))
        intro ⟨hp, hv⟩
        exact hgood ⟨fun b hb => hp b (mem_leftPadZero c b hb),
          by rw [← hexListVal_leftPadZero]; exact hv⟩

theorem asciiOk_escapeSegments (chunks : List (List Nat))
    (h : ∀ c ∈ chunks, ∀ b ∈ c, b < 128) :
    asciiOk (escapeSegments chunks) = true := by
  induction chunks with
  | nil => simp [escapeSegments, asciiOk]
  | cons c cs ih =>
    rw [escapeSegments_cons]
    simp only [asciiOk, List.all_cons, List.all_append, Bool.and_eq_true,
      decide_eq_true_eq]
    refine ⟨by omega, by omega, ?_, ?_⟩
    · simp only [List.all_eq_true, decide_eq_true_eq]
      intro b hb
      simp only [leftPadZero, List.mem_append, List.mem_replicate] at hb
      rcases hb with ⟨-, rfl⟩ | hb
      · omega
      · exact h c (by simp) b hb
    · simpa [asciiOk] using ih (fun x hx => h x (by simp [hx]))

theorem isScalarCP_le (v : Nat) (h : isScalarCP v = true) : v ≤ 0x10FFFF := by
  simp [isScalarCP, Bool.or_eq_true, Bool.and_eq_true, decide_eq_true_eq] at h
  omega

/-- C1: for an input that is one or more hyphen-separated chunks of 1-8 hex
digits, each denoting a Unicode scalar value, `unified_to_unicode` returns the
chunks decoded to one code point each (the zero-padding to 8 digits does not
change a chunk's value), concatenated in chunk order. -/
theorem C1_decode_valid_chunks (chunks : List PyStr) (hne : chunks ≠ [])
    (h : ∀ c ∈ chunks, 1 ≤ c.length ∧ c.length ≤ 8 ∧ (∀ b ∈ c, isHexDigitB b = true) ∧
      isScalarCP (hexListVal c) = true) :
    unified_to_unicode (List.intercalate [45] chunks) = .ok (chunks.map hexListVal) := by
  have hsep : ∀ c ∈ chunks, ∀ b ∈ c, b ≠ 45 := fun c hc b hb =>
    isHexDigitB_ne_sep b ((h c hc).2.2.1 b hb)
  have hascii : asciiOk (escapeSegments chunks) = true :=
    asciiOk_escapeSegments chunks (fun c hc b hb => isHexDigitB_lt b ((h c hc).2.2.1 b hb))
  simp only [unified_to_unicode]
  rw [pySplit_intercalate chunks hne hsep, if_pos hascii]
  exact uEscF_segments_ok chunks _ (escapeSegments_length chunks)
    (fun c hc => ⟨(h c hc).2.1, (h c hc).2.2.1, isScalarCP_le _ (h c hc).2.2.2⟩)

/-- Witness for C1: the single chunk `1F600` decodes to U+1F600. -/
theorem C1_decode_valid_chunks_witness :
    unified_to_unicode [49, 70, 54, 48, 48] = .ok [128512] :=
  C1_decode_valid_chunks [[49, 70, 54, 48, 48]] (by decide) (by decide)

/-- C2 counterexample: the claim says a chunk that exceeds 8 digits before
padding, or one that decodes to a surrogate (outside the scalar range), makes
`unified_to_unicode` fail; but `"000000411"` (nine digits) succeeds - the
first eight digits decode to `A` and the ninth is passed through literally -
and `"D800"` succeeds, producing a lone surrogate. -/
theorem C2_counterexample :
    unified_to_unicode [48, 48, 48, 48, 48, 48, 52, 49, 49] = .ok [65, 49] ∧
      unified_to_unicode [68, 56, 48, 48] = .ok [55296] :=
  ⟨rfl, rfl⟩

/-- C2 (amended): for an input whose hyphen-separated chunks all have at most
8 characters, if some chunk is not all hex digits or its value exceeds
0x10FFFF, then `unified_to_unicode` fails with an error (a decode error, or
an encode error when a chunk is not even ASCII).  Chunks longer than 8 digits
need not fail, and surrogate values are accepted. -/
theorem C2_amended_bad_chunk_fails (chunks : List PyStr) (hne : chunks ≠ [])
    (hsep : ∀ c ∈ chunks, ∀ b ∈ c, b ≠ 45)
    (hlen : ∀ c ∈ chunks, c.length ≤ 8)
    (hbad : ∃ c ∈ chunks, ¬((∀ b ∈ c, isHexDigitB b = true) ∧ hexListVal c ≤ 0x10FFFF)) :
    ∃ e, unified_to_unicode (List.intercalate [45] chunks) = .error e := by
  simp only [unified_to_unicode]
  rw [pySplit_intercalate chunks hne hsep]
  by_cases hascii : asciiOk (escapeSegments chunks) = true
  · rw [if_pos hascii]
    exact ⟨.unicodeDecodeError,
      uEscF_segments_err chunks _ (escapeSegments_length chunks) hlen hbad⟩
  · rw [if_neg hascii]
    exact ⟨.unicodeEncodeError, rfl⟩

/-- Witness for the amended C2: the chunk `ZZZZ` is not hexadecimal and the
call fails. -/
theorem C2_amended_bad_chunk_fails_witness :
    ∃ e, unified_to_unicode [90, 90, 90, 90] = .error e :=
  C2_amended_bad_chunk_fails [[90, 90, 90, 90]] (by decide) (by decide) (by decide)
    (by decide)

/-- C5: `unified_to_unicode("0023-FE0F")` is U+0023 followed by U+FE0F, and
`unified_to_unicode("1F600")` is the single character U+1F600. -/
theorem C5_examples :
    unified_to_unicode [48, 48, 50, 51, 45, 70, 69, 48, 70] = .ok [35, 65039] ∧
      unified_to_unicode [49, 70, 54, 48, 48] = .ok [128512] :=
  ⟨rfl, rfl⟩

/-- C9: the empty string and a trailing empty chunk (`"1F600-"`) do not fail:
an empty chunk pads to `00000000` and decodes to U+0000, which appears in the
result. -/
theorem C9_empty_chunks :
    unified_to_unicode [] = .ok [0] ∧
      unified_to_unicode [49, 70, 54, 48, 48, 45] = .ok [128512, 0] :=
  ⟨rfl, rfl⟩

theorem find?_map_update (d : Dict) (k v : PyStr) (h : d.any (keyMatches k) = true) :
    (d.map (fun p => if p.1 = k then (k, v) else p)).find? (keyMatches k) = some (k, v) := by
  induction d with
  | nil => simp at h
  | cons p d ih =>
    simp only [List.any_cons, Bool.or_eq_true] at h
    simp only [List.map_cons, List.find?_cons]
    by_cases hp : p.1 = k
    · rw [if_pos hp]
      simp [keyMatches]
    · rw [if_neg hp]
      have hh : keyMatches k p = false := by simp [keyMatches, hp]
      rw [hh]
      exact ih (h.resolve_left (by simp [keyMatches, hp]))

theorem find?_no_match (d : Dict) (k : PyStr) (h : d.any (keyMatches k) = false)
    (v : PyStr) : (d ++ [(k, v)]).find? (keyMatches k) = some (k, v) := by
  induction d with
  | nil => simp [keyMatches]
  | cons p d ih =>
    simp only [List.any_cons, Bool.or_eq_false_iff] at h
    simp only [List.cons_append, List.find?_cons, h.1]
    exact ih h.2

theorem find?_map_update_other (d : Dict) (k v k' : PyStr) (h : k' ≠ k) :
    (d.map (fun p => if p.1 = k then (k, v) else p)).find? (keyMatches k') =
      d.find? (keyMatches k') := by
  induction d with
  | nil => simp
  | cons p d ih =>
    simp only [List.map_cons, List.find?_cons]
    by_cases hp : p.1 = k
    · rw [if_pos hp]
      have h1 : keyMatches k' (k, v) = false := by
        simp only [keyMatches, decide_eq_false_iff_not]
        exact fun hh => h hh.symm
      have h2 : keyMatches k' p = false := by
        simp only [keyMatches, decide_eq_false_iff_not, hp]
        exact fun hh => h hh.symm
      rw [h1, h2]
      exact ih
    · rw [if_neg hp]
      cases hkm : keyMatches k' p <;> simp [hkm, ih]

theorem find?_append_single_other (d : Dict) (k v k' : PyStr) (h : k' ≠ k) :
    (d ++ [(k, v)]).find? (keyMatches k') = d.find? (keyMatches k') := by
  induction d with
  | nil =>
    simp only [List.nil_append, List.find?_cons, List.find?_nil]
    have h1 : keyMatches k' (k, v) = false := by
      simp only [keyMatches, decide_eq_false_iff_not]
      exact fun hh => h hh.symm
    rw [h1]
  | cons p d ih =>
    simp only [List.cons_append, List.find?_cons]
    cases hkm : keyMatches k' p <;> simp [hkm, ih]

theorem dictLookup_insert_self (d : Dict) (k v : PyStr) :
    dictLookup (dictInsert d k v) k = some v := by
  unfold dictLookup dictInsert
  by_cases h : d.any (keyMatches k) = true
  · rw [if_pos h, find?_map_update d k v h]
    rfl
  · rw [if_neg h, find?_no_match d k (by simpa using h) v]
    rfl

theorem dictLookup_insert_other (d : Dict) (k v k' : PyStr) (h : k' ≠ k) :
    dictLookup (dictInsert d k v) k' = dictLookup d k' := by
  unfold dictLookup dictInsert
  by_cases ha : d.any (keyMatches k) = true
  · rw [if_pos ha, find?_map_update_other d k v k' h]
  · rw [if_neg ha, find?_append_single_other d k v k' h]

theorem mem_dictInsert (d : Dict) (k v : PyStr) (p : PyStr × PyStr)
    (hp : p ∈ dictInsert d k v) : p = (k, v) ∨ p ∈ d := by
  unfold dictInsert at hp
  by_cases h : d.any (keyMatches k) = true
  · rw [if_pos h] at hp
    obtain ⟨q, hq, hfq⟩ := List.mem_map.mp hp
    by_cases hq1 : q.1 = k
    · rw [if_pos hq1] at hfq
      exact Or.inl hfq.symm
    · rw [if_neg hq1] at hfq
      exact Or.inr (hfq ▸ hq)
  · rw [if_neg h] at hp
    rcases List.mem_append.mp hp with hd | hs
    · exact Or.inr hd
    · exact Or.inl (by simpa using hs)

theorem key_mem_dictInsert (d : Dict) (k v k' : PyStr) :
    (∃ p ∈ dictInsert d k v, p.1 = k') ↔ (k' = k ∨ ∃ p ∈ d, p.1 = k') := by
  unfold dictInsert
  by_cases h : d.any (keyMatches k) = true
  · rw [if_pos h]
    constructor
    · rintro ⟨p, hp, hpk⟩
      obtain ⟨q, hq, hfq⟩ := List.mem_map.mp hp
      by_cases hq1 : q.1 = k
      · rw [if_pos hq1] at hfq
        left
        rw [← hpk, ← hfq]
      · rw [if_neg hq1] at hfq
        right
        exact ⟨q, hq, by rw [hfq]; exact hpk⟩
    · rintro (rfl | ⟨p, hp, hpk⟩)
      · obtain ⟨q, hq, hkq⟩ := List.any_eq_true.mp h
        have hq1 : q.1 = k' := of_decide_eq_true hkq
        exact ⟨(k', v), List.mem_map.mpr ⟨q, hq, by rw [if_pos hq1]⟩, rfl⟩
      · by_cases hp1 : p.1 = k
        · exact ⟨(k, v), List.mem_map.mpr ⟨p, hp, by rw [if_pos hp1]⟩,
            by rw [← hpk, hp1]⟩
        · exact ⟨p, List.mem_map.mpr ⟨p, hp, by rw [if_neg hp1]⟩, hpk⟩
  · rw [if_neg h]
    constructor
    · rintro ⟨p, hp, hpk⟩
      rcases List.mem_append.mp hp with hd | hs
      · exact Or.inr ⟨p, hd, hpk⟩
      · left
        have : p = (k, v) := by simpa using hs
        rw [← hpk, this]
    · rintro (rfl | ⟨p, hp, hpk⟩)
      · exact ⟨(k', v), List.mem_append.mpr (Or.inr (by simp)), rfl⟩
      · exact ⟨p, List.mem_append.mpr (Or.inl hp), hpk⟩

theorem buildTableAux_cons_ok (r : EmojiRecord) (rs : List EmojiRecord) (acc t : Dict)
    (h : buildTableAux acc (r :: rs) = .ok t) :
    ∃ k u v, r.short_name = some k ∧ r.unified = some u ∧ unified_to_unicode u = .ok v ∧
      buildTableAux (dictInsert acc k v) rs = .ok t := by
  simp only [buildTableAux] at h
  split at h
  · simp at h
  next k hsn =>
    split at h
    · simp at h
    next u hu =>
      split at h
      next e hd => simp at h
      next v hd => exact ⟨k, u, v, hsn, hu, hd, h⟩

theorem buildTableAux_ok_no_key (rs : List EmojiRecord) :
    ∀ (acc t : Dict) (k : PyStr), buildTableAux acc rs = .ok t →
    (∀ r ∈ rs, r.short_name ≠ some k) → dictLookup t k = dictLookup acc k := by
  induction rs with
  | nil =>
    intro acc t k h _
    simp only [buildTableAux] at h
    cases h
    rfl
  | cons r rs ih =>
    intro acc t k h hk
    obtain ⟨k', u, v, hsn, hu, hd, hrest⟩ := buildTableAux_cons_ok r rs acc t h
    have hkk : k ≠ k' := by
      intro he
      exact hk r (by simp) (by rw [hsn, he])
    rw [ih (dictInsert acc k' v) t k hrest (fun x hx => hk x (by simp [hx]))]
    exact dictLookup_insert_other acc k' v k hkk

theorem buildTableAux_error_of_bad (rs : List EmojiRecord) :
    ∀ acc : Dict, (∃ r ∈ rs, r.short_name = none ∨ r.unified = none ∨
      ∃ u e, r.unified = some u ∧ unified_to_unicode u = .error e) →
    ∃ e, buildTableAux acc rs = .error e := by
  induction rs with
  | nil =>
    intro acc hbad
    simp at hbad
  | cons r rs ih =>
    intro acc hbad
    obtain ⟨r', hr', hb⟩ := hbad
    simp only [List.mem_cons] at hr'
    rcases hr' with rfl | hr'
    · rcases hb with hsn | hu | ⟨u, e, hu, hd⟩
      · exact ⟨.keyError, by simp [buildTableAux, hsn]⟩
      · cases hsn : r'.short_name with
        | none => exact ⟨.keyError, by simp [buildTableAux, hsn]⟩
        | some k => exact ⟨.keyError, by simp [buildTableAux, hsn, hu]⟩
      · cases hsn : r'.short_name with
        | none => exact ⟨.keyError, by simp [buildTableAux, hsn]⟩
        | some k => exact ⟨e, by simp [buildTableAux, hsn, hu, hd]⟩
    · cases hsn : r.short_name with
      | none => exact ⟨.keyError, by simp [buildTableAux, hsn]⟩
      | some k =>
        cases hu : r.unified with
        | none => exact ⟨.keyError, by simp [buildTableAux, hsn, hu]⟩
        | some u =>
          cases hd : unified_to_unicode u with
          | error e => exact ⟨e, by simp [buildTableAux, hsn, hu, hd]⟩
          | ok v =>
            obtain ⟨e, he⟩ := ih (dictInsert acc k v) ⟨r', hr', hb⟩
            exact ⟨e, by simp [buildTableAux, hsn, hu, hd, he]⟩

theorem buildTableAux_lookup_last (l1 : List EmojiRecord) :
    ∀ (l2 : List EmojiRecord) (r : EmojiRecord) (k : PyStr) (acc t : Dict),
    buildTableAux acc (l1 ++ r :: l2) = .ok t →
    r.short_name = some k → (∀ x ∈ l2, x.short_name ≠ some k) →
    ∃ u v, r.unified = some u ∧ unified_to_unicode u = .ok v ∧
      dictLookup t k = some v := by
  induction l1 with
  | nil =>
    intro l2 r k acc t h hk hl
    obtain ⟨k', u, v, hsn, hu, hd, hrest⟩ :=
      buildTableAux_cons_ok r l2 acc t (by simpa using h)
    have : k' = k := by
      rw [hk] at hsn
      exact (Option.some_inj.mp hsn).symm
    subst this
    refine ⟨u, v, hu, hd, ?_⟩
    rw [buildTableAux_ok_no_key l2 (dictInsert acc k' v) t k' hrest hl]
    exact dictLookup_insert_self acc k' v
  | cons r0 l1 ih =>
    intro l2 r k acc t h hk hl
    obtain ⟨k0, u0, v0, hsn0, hu0, hd0, hrest⟩ :=
      buildTableAux_cons_ok r0 (l1 ++ r :: l2) acc t (by simpa using h)
    exact ih l2 r k (dictInsert acc k0 v0) t hrest hk hl

/-- C3: when the input contains two records with the same `short_name` (and
different `unified` values), and the later one is the last record with that
name, the built table maps the name to the later record's decoded value only:
processing follows input order with last-write-wins. -/
theorem C3_last_write_wins (pre mid post : List EmojiRecord) (r1 r2 : EmojiRecord)
    (k : PyStr) (t : Dict)
    (h : emojis (pre ++ r1 :: mid ++ r2 :: post) = .ok t)
    (h1 : r1.short_name = some k) (h2 : r2.short_name = some k)
    (hdiff : r1.unified ≠ r2.unified)
    (hlast : ∀ r ∈ post, r.short_name ≠ some k) :
    ∃ u v, r2.unified = some u ∧ unified_to_unicode u = .ok v ∧
      dictLookup t k = some v := by
  apply buildTableAux_lookup_last (pre ++ r1 :: mid) post r2 k [] t ?_ h2 hlast
  have hsh : (pre ++ r1 :: mid) ++ r2 :: post = pre ++ r1 :: mid ++ r2 :: post := by
    simp
  rw [hsh]
  exact h

/-- Witness for C3: two records named `k` (`0x6B`), the first decoding `1F600`,
the second `0023`; the table holds the second value U+0023. -/
theorem C3_last_write_wins_witness :
    ∃ u v, (EmojiRecord.mk (some [107]) (some [48, 48, 50, 51])).unified = some u ∧
      unified_to_unicode u = .ok v ∧
      dictLookup [([107], [35])] [107] = some v :=
  C3_last_write_wins [] [] [] ⟨some [107], some [49, 70, 54, 48, 48]⟩
    ⟨some [107], some [48, 48, 50, 51]⟩ [107] [([107], [35])]
    rfl rfl rfl (by decide) (by decide)

/-- C4: a record whose `unified` fails to decode makes the whole run fail, and
the output file is neither created nor modified: the comprehension raises
before `open(...)` ever runs. -/
theorem C4_decode_failure_no_write (data : List EmojiRecord) (fs : Option PyStr)
    (r : EmojiRecord) (u : PyStr) (e0 : PyError) (hr : r ∈ data)
    (hu : r.unified = some u) (hd : unified_to_unicode u = .error e0) :
    (runScript data fs).1 = fs ∧ ∃ e, (runScript data fs).2 = .error e := by
  obtain ⟨e, he⟩ := buildTableAux_error_of_bad data []
    ⟨r, hr, Or.inr (Or.inr ⟨u, e0, hu, hd⟩)⟩
  have he2 : emojis data = .error e := he
  simp [runScript, he2]

/-- Witness for C4: one record with `unified = "ZZZZ"`; with a pre-existing
file content, the run errors and the file keeps its content. -/
theorem C4_decode_failure_no_write_witness :
    (runScript [⟨some [120], some [90, 90, 90, 90]⟩] (some [65])).1 = some [65] ∧
      ∃ e, (runScript [⟨some [120], some [90, 90, 90, 90]⟩] (some [65])).2 = .error e :=
  C4_decode_failure_no_write [⟨some [120], some [90, 90, 90, 90]⟩] (some [65])
    ⟨some [120], some [90, 90, 90, 90]⟩ [90, 90, 90, 90] .unicodeDecodeError
    (by decide) rfl rfl

/-- C6: a record lacking `short_name` or `unified` makes the builder fail (the
dynamic field lookup raises), rather than being skipped. -/
theorem C6_missing_field_aborts (data : List EmojiRecord) (r : EmojiRecord)
    (hr : r ∈ data) (hmiss : r.short_name = none ∨ r.unified = none) :
    ∃ e, emojis data = .error e := by
  apply buildTableAux_error_of_bad data []
  rcases hmiss with h | h
  · exact ⟨r, hr, Or.inl h⟩
  · exact ⟨r, hr, Or.inr (Or.inl h)⟩

/-- Witness for C6: a record with no `short_name` aborts the build. -/
theorem C6_missing_field_aborts_witness :
    ∃ e, emojis [⟨none, some [49, 70, 54, 48, 48]⟩] = .error e :=
  C6_missing_field_aborts [⟨none, some [49, 70, 54, 48, 48]⟩]
    ⟨none, some [49, 70, 54, 48, 48]⟩ (by decide) (Or.inl rfl)

theorem buildTableAux_values (rs : List EmojiRecord) :
    ∀ (acc t : Dict), buildTableAux acc rs = .ok t →
    ∀ p ∈ t, p ∈ acc ∨ ∃ r ∈ rs, ∃ u, r.unified = some u ∧
      unified_to_unicode u = .ok p.2 := by
  induction rs with
  | nil =>
    intro acc t h p hp
    simp only [buildTableAux] at h
    cases h
    exact Or.inl hp
  | cons r rs ih =>
    intro acc t h p hp
    obtain ⟨k, u, v, hsn, hu, hd, hrest⟩ := buildTableAux_cons_ok r rs acc t h
    rcases ih (dictInsert acc k v) t hrest p hp with hacc | ⟨r', hr', hex⟩
    · rcases mem_dictInsert acc k v p hacc with rfl | hda
      · exact Or.inr ⟨r, by simp, u, hu, hd⟩
      · exact Or.inl hda
    · exact Or.inr ⟨r', by simp [hr'], hex⟩

/-- C8: on a successful build, every value of the table is the decoding of
some input record's `unified` field - no value arises any other way. -/
theorem C8_values_from_records (data : List EmojiRecord) (t : Dict)
    (h : emojis data = .ok t) :
    ∀ p ∈ t, ∃ r ∈ data, ∃ u, r.unified = some u ∧
      unified_to_unicode u = .ok p.2 := by
  intro p hp
  rcases buildTableAux_values data [] t h p hp with hacc | hex
  · simp at hacc
  · exact hex

/-- Witness for C8 on the spec's two-record example, at the `grinning` entry. -/
theorem C8_values_from_records_witness :
    ∃ r ∈ [(⟨some [103, 114], some [49, 70, 54, 48, 48]⟩ : EmojiRecord),
           ⟨some [104, 97], some [48, 48, 50, 51, 45, 70, 69, 48, 70]⟩],
      ∃ u, r.unified = some u ∧ unified_to_unicode u = .ok [128512] :=
  C8_values_from_records
    [⟨some [103, 114], some [49, 70, 54, 48, 48]⟩,
     ⟨some [104, 97], some [48, 48, 50, 51, 45, 70, 69, 48, 70]⟩]
    [([103, 114], [128512]), ([104, 97], [35, 65039])] rfl
    ([103, 114], [128512]) (by decide)

theorem buildTableAux_keys (rs : List EmojiRecord) :
    ∀ (acc t : Dict), buildTableAux acc rs = .ok t →
    ∀ k, (∃ p ∈ t, p.1 = k) ↔
      ((∃ p ∈ acc, p.1 = k) ∨ ∃ r ∈ rs, r.short_name = some k) := by
  induction rs with
  | nil =>
    intro acc t h k
    simp only [buildTableAux] at h
    cases h
    simp
  | cons r rs ih =>
    intro acc t h k
    obtain ⟨k0, u, v, hsn, hu, hd, hrest⟩ := buildTableAux_cons_ok r rs acc t h
    rw [ih (dictInsert acc k0 v) t hrest k, key_mem_dictInsert acc k0 v k]
    constructor
    · rintro ((rfl | hacc) | ⟨r', hr', hsn'⟩)
      · exact Or.inr ⟨r, by simp, hsn⟩
      · exact Or.inl hacc
      · exact Or.inr ⟨r', by simp [hr'], hsn'⟩
    · rintro (hacc | ⟨r', hr', hsn'⟩)
      · exact Or.inl (Or.inr hacc)
      · simp only [List.mem_cons] at hr'
        rcases hr' with rfl | hr'
        · rw [hsn] at hsn'
          exact Or.inl (Or.inl (Option.some_inj.mp hsn').symm)
        · exact Or.inr ⟨r', hr', hsn'⟩

/-- C10: on a successful build, the key set of the table is exactly the set of
`short_name` values of the input records. -/
theorem C10_key_set (data : List EmojiRecord) (t : Dict)
    (h : emojis data = .ok t) :
    ∀ k, (∃ p ∈ t, p.1 = k) ↔ ∃ r ∈ data, r.short_name = some k := by
  intro k
  rw [buildTableAux_keys data [] t h k]
  simp

/-- Witness for C10 on the spec's two-record example, at the key `gr`. -/
theorem C10_key_set_witness :
    (∃ p ∈ [([103, 114], [128512]), ([104, 97], [35, 65039])], p.1 = [103, 114]) ↔
      ∃ r ∈ [(⟨some [103, 114], some [49, 70, 54, 48, 48]⟩ : EmojiRecord),
             ⟨some [104, 97], some [48, 48, 50, 51, 45, 70, 69, 48, 70]⟩],
        r.short_name = some [103, 114] :=
  C10_key_set
    [⟨some [103, 114], some [49, 70, 54, 48, 48]⟩,
     ⟨some [104, 97], some [48, 48, 50, 51, 45, 70, 69, 48, 70]⟩]
    [([103, 114], [128512]), ([104, 97], [35, 65039])] rfl [103, 114]

theorem isHexDigitB_hexDigitChar (n : Nat) (h : n < 16) :
    isHexDigitB (hexDigitChar n) = true := by
  interval_cases n <;> rfl

theorem hexDigitVal_hexDigitChar (n : Nat) (h : n < 16) :
    hexDigitVal (hexDigitChar n) = n := by
  interval_cases n <;> rfl

theorem hexDigitChar_lt (n : Nat) (h : n < 16) : hexDigitChar n < 128 := by
  interval_cases n <;> decide

theorem parseStrF_close (f : Nat) (t : List Nat) :
    parseStrF (f + 1) (34 :: t) = some ([], t) := rfl

theorem parseStrF_escBS (f : Nat) (t : List Nat) :
    parseStrF (f + 1) (92 :: 92 :: t) = (fun p => (92 :: p.1, p.2)) <$> parseStrF f t := rfl

theorem parseStrF_escQ (f : Nat) (t : List Nat) :
    parseStrF (f + 1) (92 :: 34 :: t) = (fun p => (34 :: p.1, p.2)) <$> parseStrF f t := rfl

theorem parseStrF_escB (f : Nat) (t : List Nat) :
    parseStrF (f + 1) (92 :: 98 :: t) = (fun p => (8 :: p.1, p.2)) <$> parseStrF f t := rfl

theorem parseStrF_escF (f : Nat) (t : List Nat) :
    parseStrF (f + 1) (92 :: 102 :: t) = (fun p => (12 :: p.1, p.2)) <$> parseStrF f t := rfl

theorem parseStrF_escN (f : Nat) (t : List Nat) :
    parseStrF (f + 1) (92 :: 110 :: t) = (fun p => (10 :: p.1, p.2)) <$> parseStrF f t := rfl

theorem parseStrF_escR (f : Nat) (t : List Nat) :
    parseStrF (f + 1) (92 :: 114 :: t) = (fun p => (13 :: p.1, p.2)) <$> parseStrF f t := rfl

theorem parseStrF_escT (f : Nat) (t : List Nat) :
    parseStrF (f + 1) (92 :: 116 :: t) = (fun p => (9 :: p.1, p.2)) <$> parseStrF f t := rfl

theorem parseStrF_cons (f c : Nat) (t : List Nat) :
    parseStrF (f + 1) (c :: t) =
      if c = 34 then some ([], t)
      else if c = 92 then
        match t with
        | [] => none
        | e :: r2 =>
          match escStep e r2 with
          | none => none
          | some (w, r3) => (fun p => (w :: p.1, p.2)) <$> parseStrF f r3
      else if c < 32 then none
      else (fun p => (c :: p.1, p.2)) <$> parseStrF f t := rfl

theorem parseStrF_lit (f c : Nat) (t : List Nat) (h1 : ¬c = 34) (h2 : ¬c = 92)
    (h3 : ¬c < 32) :
    parseStrF (f + 1) (c :: t) = (fun p => (c :: p.1, p.2)) <$> parseStrF f t := by
  rw [parseStrF_cons, if_neg h1, if_neg h2, if_neg h3]

theorem escStep_u00 (c : Nat) (t : List Nat) (hc : c < 32) :
    escStep 117 (48 :: 48 :: hexDigitChar (c / 16) :: hexDigitChar (c % 16) :: t) =
      some (c, t) := by
  have hd1 : c / 16 < 16 := by omega
  have hd2 : c % 16 < 16 := by omega
  have e1 : isHexDigitB (hexDigitChar (c / 16)) = true := isHexDigitB_hexDigitChar _ hd1
  have e2 : isHexDigitB (hexDigitChar (c % 16)) = true := isHexDigitB_hexDigitChar _ hd2
  have hv : hexListVal [48, 48, hexDigitChar (c / 16), hexDigitChar (c % 16)] = c := by
    simp only [hexListVal, List.foldl_cons, List.foldl_nil,
      hexDigitVal_hexDigitChar _ hd1, hexDigitVal_hexDigitChar _ hd2]
    have h48 : hexDigitVal 48 = 0 := by decide
    rw [h48]
    omega
  have hns : ¬(0xD800 ≤ hexListVal [48, 48, hexDigitChar (c / 16), hexDigitChar (c % 16)] ∧
      hexListVal [48, 48, hexDigitChar (c / 16), hexDigitChar (c % 16)] ≤ 0xDBFF) := by
    rw [hv]
    omega
  simp only [escStep]
  simp [e1, e2, hns, hv]
  refine ⟨by decide, fun hh _ => absurd hh (by omega)⟩

theorem parseStrF_escStep (f e : Nat) (r2 : List Nat) :
    parseStrF (f + 1) (92 :: e :: r2) =
      match escStep e r2 with
      | none => none
      | some (w, r3) => (fun p => (w :: p.1, p.2)) <$> parseStrF f r3 := rfl

theorem parseStrF_u00 (f c : Nat) (t : List Nat) (hc : c < 32) :
    parseStrF (f + 1)
      (92 :: 117 :: 48 :: 48 :: hexDigitChar (c / 16) :: hexDigitChar (c % 16) :: t) =
      (fun p => (c :: p.1, p.2)) <$> parseStrF f t := by
  rw [parseStrF_escStep, escStep_u00 c t hc]

theorem parseStrF_escape (s : PyStr) : ∀ (fuel : Nat) (rest : List Nat),
    s.length + 1 ≤ fuel →
    parseStrF fuel ((s.map jsonEscapeChar).flatten ++ 34 :: rest) = some (s, rest) := by
  induction s with
  | nil =>
    intro fuel rest hf
    cases fuel with
    | zero => simp at hf
    | succ f => exact parseStrF_close f rest
  | cons c s ih =>
    intro fuel rest hf
    cases fuel with
    | zero => simp at hf
    | succ f =>
      have hf2 : s.length + 1 ≤ f := by
        simp only [List.length_cons] at hf
        omega
      simp only [List.map_cons, List.flatten_cons, List.append_assoc]
      by_cases h92 : c = 92
      · subst h92
        rw [show jsonEscapeChar 92 = [92, 92] from rfl]
        simp only [List.cons_append, List.nil_append]
        rw [parseStrF_escBS, ih f rest hf2]
        rfl
      by_cases h34 : c = 34
      · subst h34
        rw [show jsonEscapeChar 34 = [92, 34] from rfl]
        simp only [List.cons_append, List.nil_append]
        rw [parseStrF_escQ, ih f rest hf2]
        rfl
      by_cases h8 : c = 8
      · subst h8
        rw [show jsonEscapeChar 8 = [92, 98] from rfl]
        simp only [List.cons_append, List.nil_append]
        rw [parseStrF_escB, ih f rest hf2]
        rfl
      by_cases h12 : c = 12
      · subst h12
        rw [show jsonEscapeChar 12 = [92, 102] from rfl]
        simp only [List.cons_append, List.nil_append]
        rw [parseStrF_escF, ih f rest hf2]
        rfl
      by_cases h10 : c = 10
      · subst h10
        rw [show jsonEscapeChar 10 = [92, 110] from rfl]
        simp only [List.cons_append, List.nil_append]
        rw [parseStrF_escN, ih f rest hf2]
        rfl
      by_cases h13 : c = 13
      · subst h13
        rw [show jsonEscapeChar 13 = [92, 114] from rfl]
        simp only [List.cons_append, List.nil_append]
        rw [parseStrF_escR, ih f rest hf2]
        rfl
      by_cases h9 : c = 9
      · subst h9
        rw [show jsonEscapeChar 9 = [92, 116] from rfl]
        simp only [List.cons_append, List.nil_append]
        rw [parseStrF_escT, ih f rest hf2]
        rfl
      by_cases hlt : c < 32
      · rw [show jsonEscapeChar c =
          [92, 117, 48, 48, hexDigitChar (c / 16), hexDigitChar (c % 16)] by
            unfold jsonEscapeChar
            rw [if_neg h92, if_neg h34, if_neg h8, if_neg h12, if_neg h10,
              if_neg h13, if_neg h9, if_pos hlt]]
        simp only [List.cons_append, List.nil_append]
        rw [parseStrF_u00 f c _ hlt, ih f rest hf2]
        rfl
      · rw [show jsonEscapeChar c = [c] by
          unfold jsonEscapeChar
          rw [if_neg h92, if_neg h34, if_neg h8, if_neg h12, if_neg h10,
            if_neg h13, if_neg h9, if_neg hlt]]
        simp only [List.cons_append, List.nil_append]
        rw [parseStrF_lit f c _ h34 h92 hlt, ih f rest hf2]
        rfl

theorem jsonEscapeChar_length_pos (c : Nat) : 1 ≤ (jsonEscapeChar c).length := by
  unfold jsonEscapeChar
  split_ifs <;> simp

theorem escBody_len (s : PyStr) :
    s.length ≤ ((s.map jsonEscapeChar).flatten).length := by
  induction s with
  | nil => simp
  | cons c s ih =>
    simp only [List.map_cons, List.flatten_cons, List.length_append, List.length_cons]
    have := jsonEscapeChar_length_pos c
    omega

theorem skipWs_cons_false (c : Nat) (x : List Nat) (h : isJsonWs c = false) :
    skipWs (c :: x) = c :: x := by
  simp [skipWs, h]

theorem skipWs34 (x : List Nat) : skipWs (34 :: x) = 34 :: x := rfl

theorem skipWs58 (x : List Nat) : skipWs (58 :: x) = 58 :: x := rfl

theorem skipWs32 (x : List Nat) : skipWs (32 :: x) = skipWs x := rfl

theorem parseOneEntry_quote (r1 : List Nat) :
    parseOneEntry (34 :: r1) =
      match parseStrF r1.length r1 with
      | none => none
      | some (k, r2) =>
        match skipWs r2 with
        | [] => none
        | c2 :: r3 =>
          if c2 = 58 then
            match skipWs r3 with
            | [] => none
            | c3 :: r4 =>
              if c3 = 34 then
                match parseStrF r4.length r4 with
                | none => none
                | some (v, r5) =>
                  match skipWs r5 with
                  | [] => none
                  | c4 :: r6 => some (k, v, c4, r6)
              else none
          else none := rfl

theorem parseOneEntry_dump (kk vv : PyStr) (d : Nat) (tail : List Nat)
    (hd : isJsonWs d = false) :
    parseOneEntry (jsonEscapeString kk ++ [58, 32] ++ jsonEscapeString vv ++ d :: tail) =
      some (kk, vv, d, tail) := by
  have hshape : jsonEscapeString kk ++ [58, 32] ++ jsonEscapeString vv ++ d :: tail =
      34 :: ((kk.map jsonEscapeChar).flatten ++ 34 ::
        (58 :: 32 :: (34 :: ((vv.map jsonEscapeChar).flatten ++ 34 :: (d :: tail))))) := by
    simp [jsonEscapeString]
  have hk : parseStrF ((kk.map jsonEscapeChar).flatten ++ 34 ::
        (58 :: 32 :: (34 :: ((vv.map jsonEscapeChar).flatten ++ 34 :: (d :: tail))))).length
      ((kk.map jsonEscapeChar).flatten ++ 34 ::
        (58 :: 32 :: (34 :: ((vv.map jsonEscapeChar).flatten ++ 34 :: (d :: tail))))) =
      some (kk, 58 :: 32 :: (34 :: ((vv.map jsonEscapeChar).flatten ++ 34 :: (d :: tail)))) := by
    apply parseStrF_escape
    have := escBody_len kk
    simp only [List.length_append, List.length_cons]
    omega
  have hv : parseStrF ((vv.map jsonEscapeChar).flatten ++ 34 :: (d :: tail)).length
      ((vv.map jsonEscapeChar).flatten ++ 34 :: (d :: tail)) = some (vv, d :: tail) := by
    apply parseStrF_escape
    have := escBody_len vv
    simp only [List.length_append, List.length_cons]
    omega
  rw [hshape, parseOneEntry_quote]
  simp only [hk, skipWs58, skipWs32, skipWs34, hv, skipWs_cons_false d tail hd]
  simp

theorem parseEntriesF_succ (f : Nat) (s : List Nat) :
    parseEntriesF (f + 1) s =
      match parseOneEntry s with
      | none => none
      | some (k, v, c4, r6) =>
        if c4 = 44 then
          match parseEntriesF f r6 with
          | none => none
          | some (d, rest) => some ((k, v) :: d, rest)
        else if c4 = 125 then some ([(k, v)], r6)
        else none := rfl

theorem parseEntriesF_ws32 (f : Nat) (x : List Nat) :
    parseEntriesF f (32 :: x) = parseEntriesF f x := by
  cases f <;> rfl

theorem parseEntriesF_entry (f : Nat) (s : List Nat) (k v : PyStr) (c4 : Nat)
    (r6 : List Nat) (h : parseOneEntry s = some (k, v, c4, r6)) :
    parseEntriesF (f + 1) s =
      if c4 = 44 then
        match parseEntriesF f r6 with
        | none => none
        | some (d, rest) => some ((k, v) :: d, rest)
      else if c4 = 125 then some ([(k, v)], r6)
      else none := by
  rw [parseEntriesF_succ, h]

theorem parseEntriesF_dump (t : Dict) : ∀ (fuel : Nat) (tail : List Nat), t ≠ [] →
    t.length ≤ fuel →
    parseEntriesF fuel (jsonDumpEntries t ++ 125 :: tail) = some (t, tail) := by
  induction t with
  | nil =>
    intro fuel tail hne _
    exact absurd rfl hne
  | cons kv t2 ih =>
    obtain ⟨k, v⟩ := kv
    intro fuel tail hne hf
    cases fuel with
    | zero => simp at hf
    | succ f =>
      cases t2 with
      | nil =>
        have hsh : jsonDumpEntries [(k, v)] ++ 125 :: tail =
            jsonEscapeString k ++ [58, 32] ++ jsonEscapeString v ++ 125 :: tail := by
          simp [jsonDumpEntries]
        rw [hsh, parseEntriesF_entry f _ k v 125 tail
          (parseOneEntry_dump k v 125 tail (by decide))]
        rfl
      | cons e2 t3 =>
        have hsh : jsonDumpEntries ((k, v) :: e2 :: t3) ++ 125 :: tail =
            jsonEscapeString k ++ [58, 32] ++ jsonEscapeString v ++
              44 :: (32 :: (jsonDumpEntries (e2 :: t3) ++ 125 :: tail)) := by
          simp [jsonDumpEntries]
        rw [hsh, parseEntriesF_entry f _ k v 44 _
          (parseOneEntry_dump k v 44 _ (by decide))]
        have hrec : parseEntriesF f (32 :: (jsonDumpEntries (e2 :: t3) ++ 125 :: tail)) =
            some (e2 :: t3, tail) := by
          rw [parseEntriesF_ws32]
          apply ih f tail (by simp)
          simp only [List.length_cons] at hf ⊢
          omega
        rw [hrec]
        rfl

theorem jsonEscapeString_length (s : PyStr) : 2 ≤ (jsonEscapeString s).length := by
  simp [jsonEscapeString]

theorem jsonDumpEntries_head (t : Dict) (ht : t ≠ []) :
    ∃ x, jsonDumpEntries t = 34 :: x := by
  cases t with
  | nil => exact absurd rfl ht
  | cons kv t2 =>
    obtain ⟨k, v⟩ := kv
    cases t2 with
    | nil =>
      refine ⟨((k.map jsonEscapeChar).flatten ++ [34]) ++
        ([58, 32] ++ jsonEscapeString v), ?_⟩
      simp [jsonDumpEntries, jsonEscapeString]
    | cons e2 t3 =>
      refine ⟨((k.map jsonEscapeChar).flatten ++ [34]) ++
        ([58, 32] ++ jsonEscapeString v ++ [44, 32] ++ jsonDumpEntries (e2 :: t3)), ?_⟩
      simp [jsonDumpEntries, jsonEscapeString]

theorem jsonDumpEntries_length (t : Dict) : t.length ≤ (jsonDumpEntries t).length := by
  induction t with
  | nil => simp [jsonDumpEntries]
  | cons kv t2 ih =>
    obtain ⟨k, v⟩ := kv
    cases t2 with
    | nil =>
      simp only [jsonDumpEntries, List.length_append, List.length_cons, List.length_nil]
      have := jsonEscapeString_length k
      omega
    | cons e2 t3 =>
      simp only [jsonDumpEntries, List.length_append, List.length_cons] at ih ⊢
      have := jsonEscapeString_length k
      omega

theorem skipWs123 (x : List Nat) : skipWs (123 :: x) = 123 :: x := rfl

theorem parseJson_open (r : List Nat) :
    parseJson (123 :: r) =
      match skipWs r with
      | [] => none
      | d :: r2 =>
        if d = 125 then if skipWs r2 = [] then some [] else none
        else
          match parseEntriesF r.length (d :: r2) with
          | none => none
          | some (t, rest) => if skipWs rest = [] then some t else none := rfl

theorem parseJson_obj (E x : List Nat) (t : Dict) (hx : E = 34 :: x)
    (hent : parseEntriesF (E ++ [125]).length (E ++ [125]) = some (t, [])) :
    parseJson (123 :: (E ++ [125])) = some t := by
  subst hx
  rw [parseJson_open]
  simp only [List.cons_append, skipWs34] at hent ⊢
  simp only [hent]
  rw [if_pos (show skipWs [] = [] from rfl), if_neg (show ¬(34 = 125) by decide)]

theorem parseJson_dumps (t : Dict) : parseJson (jsonDumps t) = some t := by
  cases t with
  | nil => rfl
  | cons kv t2 =>
    obtain ⟨x, hx⟩ := jsonDumpEntries_head (kv :: t2) (by simp)
    have hent : parseEntriesF ((jsonDumpEntries (kv :: t2)) ++ [125]).length
        ((jsonDumpEntries (kv :: t2)) ++ [125]) = some (kv :: t2, []) := by
      apply parseEntriesF_dump (kv :: t2) _ [] (by simp)
      have := jsonDumpEntries_length (kv :: t2)
      simp only [List.length_append, List.length_cons, List.length_nil]
      simp only [List.length_cons] at this
      omega
    exact parseJson_obj (jsonDumpEntries (kv :: t2)) x (kv :: t2) hx hent

theorem isScalarCP_of_lt (b : Nat) (h : b < 128) : isScalarCP b = true := by
  simp only [isScalarCP, Bool.or_eq_true, decide_eq_true_eq]
  omega

theorem mem_jsonEscapeChar (b c : Nat) (hb : b ∈ jsonEscapeChar c) : b = c ∨ b < 128 := by
  unfold jsonEscapeChar at hb
  split_ifs at hb with h1 h2 h3 h4 h5 h6 h7 h8
  · right; simp only [List.mem_cons, List.not_mem_nil, or_false] at hb
    rcases hb with rfl | rfl <;> omega
  · right; simp only [List.mem_cons, List.not_mem_nil, or_false] at hb
    rcases hb with rfl | rfl <;> omega
  · right; simp only [List.mem_cons, List.not_mem_nil, or_false] at hb
    rcases hb with rfl | rfl <;> omega
  · right; simp only [List.mem_cons, List.not_mem_nil, or_false] at hb
    rcases hb with rfl | rfl <;> omega
  · right; simp only [List.mem_cons, List.not_mem_nil, or_false] at hb
    rcases hb with rfl | rfl <;> omega
  · right; simp only [List.mem_cons, List.not_mem_nil, or_false] at hb
    rcases hb with rfl | rfl <;> omega
  · right; simp only [List.mem_cons, List.not_mem_nil, or_false] at hb
    rcases hb with rfl | rfl <;> omega
  · right
    simp only [List.mem_cons, List.not_mem_nil, or_false] at hb
    have hc1 : hexDigitChar (c / 16) < 128 := hexDigitChar_lt _ (by omega)
    have hc2 : hexDigitChar (c % 16) < 128 := hexDigitChar_lt _ (by omega)
    rcases hb with rfl | rfl | rfl | rfl | rfl | rfl <;> omega
  · left
    simpa using hb

theorem jsonEscapeString_scalar (s : PyStr) (hs : ∀ b ∈ s, isScalarCP b = true) :
    ∀ b ∈ jsonEscapeString s, isScalarCP b = true := by
  intro b hb
  simp only [jsonEscapeString, List.mem_cons, List.mem_append, List.mem_flatten,
    List.mem_map, List.not_mem_nil, or_false] at hb
  rcases hb with rfl | ⟨l, ⟨c, hc, rfl⟩, hbl⟩ | rfl
  · decide
  · rcases mem_jsonEscapeChar b c hbl with rfl | hlt
    · exact hs b hc
    · exact isScalarCP_of_lt b hlt
  · decide

theorem jsonDumpEntries_scalar (t : Dict)
    (h : ∀ p ∈ t, (∀ b ∈ p.1, isScalarCP b = true) ∧ (∀ b ∈ p.2, isScalarCP b = true)) :
    ∀ b ∈ jsonDumpEntries t, isScalarCP b = true := by
  induction t with
  | nil => simp [jsonDumpEntries]
  | cons kv t2 ih =>
    obtain ⟨k, v⟩ := kv
    intro b hb
    have hk : ∀ b ∈ k, isScalarCP b = true := (h (k, v) (by simp)).1
    have hv : ∀ b ∈ v, isScalarCP b = true := (h (k, v) (by simp)).2
    cases t2 with
    | nil =>
      simp only [jsonDumpEntries, List.mem_append, List.mem_cons,
        List.not_mem_nil, or_false] at hb
      rcases hb with (hb | rfl | rfl) | hb
      · exact jsonEscapeString_scalar k hk b hb
      · decide
      · decide
      · exact jsonEscapeString_scalar v hv b hb
    | cons e2 t3 =>
      simp only [jsonDumpEntries, List.mem_append, List.mem_cons,
        List.not_mem_nil, or_false] at hb
      rcases hb with (((hb | rfl | rfl) | hb) | rfl | rfl) | hb
      · exact jsonEscapeString_scalar k hk b hb
      · decide
      · decide
      · exact jsonEscapeString_scalar v hv b hb
      · decide
      · decide
      · exact ih (fun p hp => h p (by simp [hp])) b hb

theorem writeTable_ok (t : Dict)
    (h : ∀ p ∈ t, (∀ b ∈ p.1, isScalarCP b = true) ∧ (∀ b ∈ p.2, isScalarCP b = true)) :
    writeTable t = .ok (jsonDumps t) := by
  unfold writeTable
  rw [if_pos]
  rw [List.all_eq_true]
  intro b hb
  simp only [jsonDumps, List.mem_cons, List.mem_append, List.not_mem_nil,
    or_false] at hb
  rcases hb with rfl | hb | rfl
  · decide
  · exact jsonDumpEntries_scalar t h b hb
  · decide

theorem jsonEscapeChar_literal (c : Nat) (h : 128 ≤ c) : jsonEscapeChar c = [c] := by
  unfold jsonEscapeChar
  split_ifs <;> first | rfl | (exfalso; omega)

/-- C7 counterexample: the single record `("x", "D800")` builds successfully
into a table whose value is a lone surrogate U+D800; serializing that table to
the UTF-8 output file fails with a UnicodeEncodeError, so no file content
exists to re-parse - the round trip is not the identity on every successfully
built table. -/
theorem C7_counterexample :
    emojis [⟨some [120], some [68, 56, 48, 48]⟩] = .ok [([120], [55296])] ∧
      writeTable [([120], [55296])] = .error .unicodeEncodeError :=
  ⟨rfl, rfl⟩

/-- C7 (amended): for every successfully built table whose keys and values
contain only Unicode scalar values (no lone surrogates), the write succeeds
with the serialized text, re-parsing that text as JSON yields exactly the
in-memory table, and every non-ASCII character is emitted literally by the
escaper rather than as an escape sequence. -/
theorem C7_roundtrip_amended (data : List EmojiRecord) (t : Dict)
    (h : emojis data = .ok t)
    (hscalar : ∀ p ∈ t, (∀ b ∈ p.1, isScalarCP b = true) ∧
      (∀ b ∈ p.2, isScalarCP b = true)) :
    writeTable t = .ok (jsonDumps t) ∧ parseJson (jsonDumps t) = some t ∧
      ∀ c, 128 ≤ c → jsonEscapeChar c = [c] :=
  ⟨writeTable_ok t hscalar, parseJson_dumps t, fun c hc => jsonEscapeChar_literal c hc⟩

/-- Witness for the amended C7 on the spec's two-record example
(`grinning`/`1F600`, `hash`/`0023-FE0F`). -/
theorem C7_roundtrip_amended_witness :
    writeTable [([103, 114], [128512]), ([104, 97], [35, 65039])] =
        .ok (jsonDumps [([103, 114], [128512]), ([104, 97], [35, 65039])]) ∧
      parseJson (jsonDumps [([103, 114], [128512]), ([104, 97], [35, 65039])]) =
        some [([103, 114], [128512]), ([104, 97], [35, 65039])] ∧
      ∀ c, 128 ≤ c → jsonEscapeChar c = [c] :=
  C7_roundtrip_amended
    [⟨some [103, 114], some [49, 70, 54, 48, 48]⟩,
     ⟨some [104, 97], some [48, 48, 50, 51, 45, 70, 69, 48, 70]⟩]
    [([103, 114], [128512]), ([104, 97], [35, 65039])] rfl (by decide)
